import Mathlib

/-!
Verification of `streaming-speech-translation.py`.

The development shallowly embeds the parts of the program the claims are
about:

* `drainLoop` / `generatorRun` embed `ResumableMicrophoneStream.generator`
  (lines 131-154): the outer `while not self.closed` loop with its
  streaming-limit check, the blocking `get`, and the inner non-blocking
  drain loop that coalesces buffered chunks into one yielded unit.
* `synthesize_text`, `translate_text` and the `listen_loop` step embed the
  translation/synthesis pipeline and its two global counters `RECORD_INC`
  and `PLAY_INC` (lines 156-246).
* `hasExitKeyword` embeds the regex search
  `re.search(r'\b(exit|quit)\b', transcript, re.I)` on line 240
  (`\w` is modelled over the ASCII range).
* `htmlUnescapeList` models the Python stdlib `html.unescape` call on
  line 199, restricted to the entities produced by `html.escape`;
  `htmlEscapeList` models `html.escape` with `quote=True`.

External collaborators (the microphone callback, the speech, translation
and synthesis network backends, the MP3 length probe and the wall clock)
enter the model as oracle parameters: lists or functions supplying the
values the program would have observed.
-/

/-- Audio chunk payloads are abstracted as ids; a queue entry is
`some chunk` for a real chunk and `none` for the terminal sentinel the
stream pushes on close (line 123). -/
abbrev QItem := Option Nat

/-- Outcome of one run of the generator body: why the generator stopped. -/
inductive GenEnd
  | expired
  | sentinel
  | closedEnd
  | blocked
  | fuelOut
deriving DecidableEq, Repr

/-- Result of running the generator until it stops: the coalesced units it
yielded, the queue contents it left unconsumed, the value of
`self.start_time` when it stopped, and why it stopped. -/
structure GenResult where
  delivered : List (List Nat)
  remaining : List QItem
  finalStart : Int
  reason : GenEnd
deriving DecidableEq, Repr

/-- Embeds the inner drain loop (lines 145-152): non-blocking `get` calls
that append to `data` until the queue reports empty, returning the
collected chunks, the unconsumed queue suffix, and whether the sentinel
was observed (in which case the generator returns at once, discarding the
collected data).  The argument `avail` is the oracle for how many
non-blocking `get` calls succeed before one raises `queue.Empty`; fewer
items than `avail` in the queue also stops the drain. -/
def drainLoop : List QItem → Nat → List Nat × List QItem × Bool
  | buf, 0 => ([], buf, false)
  | [], _ + 1 => ([], [], false)
  | none :: rest, _ + 1 => ([], rest, true)
  | some c :: rest, k + 1 =>
      let r := drainLoop rest k
      (c :: r.1, r.2.1, r.2.2)

/-- The streaming limit of the reference program (line 64), in ms. -/
def STREAMING_LIMIT : Int := 55000

/-- Embeds `ResumableMicrophoneStream.generator` (lines 131-154) run to
completion.  Per outer iteration the oracles supply: `closeds i`, the
value of `self.closed` at the `while` test; `times i`, the value of
`get_current_time()` at the limit check (the immediately following second
call on line 134 is modelled with the same value); `avails i`, how many
non-blocking `get` calls of the drain succeed.  `fuel` bounds the number
of outer iterations; any `fuel > buf.length` is enough for the run to
finish on its own.  On expiry the generator stores the current time into
`self.start_time` and breaks; on a sentinel it returns, discarding any
chunks collected in the current drain (lines 148-149). -/
def generatorRun (limit : Int) :
    Nat → Int → (Nat → Bool) → (Nat → Int) → (Nat → Nat) → List QItem → GenResult
  | 0, st, _, _, _, buf => ⟨[], buf, st, .fuelOut⟩
  | fuel + 1, st, closeds, times, avails, buf =>
    if closeds 0 then ⟨[], buf, st, .closedEnd⟩
    else if times 0 - st > limit then ⟨[], buf, times 0, .expired⟩
    else
      match buf with
      | [] => ⟨[], [], st, .blocked⟩
      | none :: rest => ⟨[], rest, st, .sentinel⟩
      | some c :: rest =>
        let d := drainLoop rest (avails 0)
        if d.2.2 then ⟨[], d.2.1, st, .sentinel⟩
        else
          let r := generatorRun limit fuel st (fun i => closeds (i + 1))
            (fun i => times (i + 1)) (fun i => avails (i + 1)) d.2.1
          ⟨(c :: d.1) :: r.delivered, r.remaining, r.finalStart, r.reason⟩

/-- The enqueued chunk sequence truncated at the first sentinel. -/
def truncAtSentinel (buf : List QItem) : List Nat :=
  (buf.takeWhile fun x => x.isSome).filterMap id

/-- `isHeadSegment xs ys` says `xs` is an initial segment of `ys`. -/
def isHeadSegment (xs ys : List Nat) : Prop := ∃ t, xs ++ t = ys

example : drainLoop [some 1, some 2] 5 = ([1, 2], [], false) := by decide

example :
    generatorRun 100 3 0 (fun _ => false) (fun _ => 10) (fun _ => 9)
      [some 1, some 2, none] = ⟨[], [], 0, .sentinel⟩ := by decide

example :
    generatorRun 100 4 0 (fun _ => false) (fun i => 90 * Int.ofNat i)
      (fun _ => 0) [some 1, some 2, some 3] =
      ⟨[[1], [2]], [some 3], 180, .expired⟩ := by decide

/-- State built from the program's global counters and from the
synthesis/playback side effects: `recordInc` is `RECORD_INC`, `playInc`
is `PLAY_INC` (both initially 0, lines 67-68); `saved` lists the indices
`N` of the files `output_N.mp3` written so far (line 178); `playedFiles`
lists the indices passed to `playsound` (line 187); `synthInputs` lists
the texts handed to the synthesis backend (line 164). -/
structure PipeState where
  recordInc : Nat
  playInc : Nat
  saved : List Nat
  playedFiles : List Nat
  synthInputs : List String
deriving DecidableEq, Repr

/-- The initial state: both globals are 0 and nothing has been written,
played or synthesized. -/
def pipe0 : PipeState := ⟨0, 0, [], [], []⟩

/-- Embeds `synthesize_text` (lines 156-191).  The synthesis network call
is external; `text` is recorded as what was sent to it.  `mp3Length` is
the oracle for `MP3('output_N.mp3').info.length` (line 184) and `eps` is
the oracle for `time.time() - start` at the single evaluation of the
`while` condition on line 188 (the loop body is `PLAY_INC += 1; break`,
so the condition is evaluated at most once).  `playsound` is invoked with
`block=False` (line 187), so starting playback consumes no time: the
returned rational is the total time the playback section spends before
the function returns, namely `eps` when the index gate is taken and `0`
otherwise. -/
def synthesize_text (st : PipeState) (text : String) (mp3Length eps : ℚ) :
    PipeState × ℚ :=
  let st1 := { st with synthInputs := st.synthInputs ++ [text],
                       saved := st.saved ++ [st.recordInc] }
  if st1.playInc = st1.recordInc then
    let st2 := { st1 with playedFiles := st1.playedFiles ++ [st1.playInc] }
    if eps < mp3Length then ({ st2 with playInc := st2.playInc + 1 }, eps)
    else (st2, eps)
  else (st1, 0)

/-- Models the Python stdlib `html.escape` (with `quote=True`) on one
character: the five characters it replaces by entities. -/
def escapeChar (c : Char) : List Char :=
  if c = '&' then "&amp;".data
  else if c = '<' then "&lt;".data
  else if c = '>' then "&gt;".data
  else if c = '"' then "&quot;".data
  else if c = '\'' then "&#x27;".data
  else [c]

/-- Models the Python stdlib `html.escape` with `quote=True`. -/
def htmlEscapeList : List Char → List Char
  | [] => []
  | c :: rest => escapeChar c ++ htmlEscapeList rest

/-- Models the Python stdlib `html.unescape` used on line 199, restricted
to the five entities `html.escape` emits; other text is left unchanged. -/
def htmlUnescapeList : List Char → List Char
  | [] => []
  | '&' :: 'a' :: 'm' :: 'p' :: ';' :: rs => '&' :: htmlUnescapeList rs
  | '&' :: 'l' :: 't' :: ';' :: rs => '<' :: htmlUnescapeList rs
  | '&' :: 'g' :: 't' :: ';' :: rs => '>' :: htmlUnescapeList rs
  | '&' :: 'q' :: 'u' :: 'o' :: 't' :: ';' :: rs => '"' :: htmlUnescapeList rs
  | '&' :: '#' :: 'x' :: '2' :: '7' :: ';' :: rs => '\'' :: htmlUnescapeList rs
  | c :: rest => c :: htmlUnescapeList rest

/-- String wrapper for `htmlEscapeList`. -/
def htmlEscape (s : String) : String := ⟨htmlEscapeList s.data⟩

/-- String wrapper for `htmlUnescapeList`. -/
def htmlUnescape (s : String) : String := ⟨htmlUnescapeList s.data⟩

/-- Embeds `translate_text` (lines 194-201).  The translation network
call on `text` is external; `translatedText` is the oracle for the
backend response field `translation['translatedText']`.  Line 199 applies
`html.unescape` to it and line 200 hands the decoded text to
`synthesize_text`. -/
def translate_text (st : PipeState) (text translatedText : String)
    (mp3Length eps : ℚ) : PipeState × ℚ :=
  synthesize_text st (htmlUnescape translatedText) mp3Length eps

/-- The per-utterance oracle values for one dispatched final transcript:
the transcript `text` sent to translation, the backend's raw
`translatedText` response, and the `mp3Length`/`eps` oracles of
`synthesize_text`. -/
structure UttParams where
  text : String
  translated : String
  mp3Length : ℚ
  eps : ℚ
deriving DecidableEq, Repr

/-- Embeds the dispatch of one finalized utterance by `listen_loop`
(lines 244-245): `translate_text(...)` followed by `RECORD_INC += 1`. -/
def listen_dispatch (st : PipeState) (p : UttParams) : PipeState :=
  let st1 := (translate_text st p.text p.translated p.mp3Length p.eps).1
  { st1 with recordInc := st1.recordInc + 1 }

/-- Runs a sequence of dispatched utterances. -/
def runUtts : PipeState → List UttParams → PipeState
  | st, [] => st
  | st, p :: rest => runUtts (listen_dispatch st p) rest

/-- The pipeline states at utterance boundaries: before the first
dispatch and after each complete dispatch. -/
def uttStates (st : PipeState) (ps : List UttParams) : List PipeState :=
  List.scanl listen_dispatch st ps

/-- The pipeline states at counter granularity: for each utterance both
the state after `synthesize_text` returned (where `PLAY_INC` may already
have advanced, line 189) and the state after the subsequent
`RECORD_INC += 1` (line 245) are listed. -/
def fineStates : PipeState → List UttParams → List PipeState
  | st, [] => [st]
  | st, p :: rest =>
      let mid := (translate_text st p.text p.translated p.mp3Length p.eps).1
      st :: mid :: fineStates { mid with recordInc := mid.recordInc + 1 } rest

example :
    (synthesize_text pipe0 "hi" 5 0).1 = ⟨0, 1, [0], [0], ["hi"]⟩ := by decide

example : htmlUnescape "a&amp;b" = "a&b" := by decide

example :
    runUtts pipe0 [⟨"a", "a", 1, 0⟩, ⟨"b", "b", 1, 0⟩] =
      ⟨2, 2, [0, 1], [0, 1], ["a", "b"]⟩ := by decide

/-- Python's `\w` over the ASCII range: letters, digits and underscore.
Transcripts beyond ASCII are outside this model. -/
def isWordChar (c : Char) : Bool := c.isAlphanum || c = '_'

/-- Matches the keyword pattern `kw` (given in lowercase) against the
start of `cs`, case-insensitively, and requires the trailing `\b`: after
the keyword the string ends or continues with a non-word character. -/
def kwMatchAt : List Char → List Char → Bool
  | [], [] => true
  | [], c :: _ => !isWordChar c
  | _ :: _, [] => false
  | k :: ks, c :: rest => c.toLower == k && kwMatchAt ks rest

/-- The leading `\b` holds at the current position given the previous
character (`none` at the start of the string). -/
def boundaryBefore : Option Char → Bool
  | none => true
  | some p => !isWordChar p

/-- Scans the string for an occurrence of `exit` or `quit` with word
boundaries on both sides, tracking the previous character. -/
def searchKeyword : Option Char → List Char → Bool
  | _, [] => false
  | prev, c :: rest =>
    (boundaryBefore prev &&
      (kwMatchAt ['e', 'x', 'i', 't'] (c :: rest) ||
        kwMatchAt ['q', 'u', 'i', 't'] (c :: rest)))
    || searchKeyword (some c) rest

/-- Embeds `re.search(r'\b(exit|quit)\b', transcript, re.I)` (line 240)
as a Boolean: whether the search finds a match. -/
def hasExitKeyword (s : String) : Bool := searchKeyword none s.data

/-- Declarative reading of the regex: the transcript splits as
`pre ++ kw ++ post` where `kw` is `exit` or `quit` up to case, `pre` ends
at a word boundary and `post` starts at one. -/
def keywordSpec (s : String) : Prop :=
  ∃ pre kw post, s.data = pre ++ kw ++ post
    ∧ (kw.map Char.toLower = ['e', 'x', 'i', 't'] ∨
        kw.map Char.toLower = ['q', 'u', 'i', 't'])
    ∧ (pre = [] ∨ ∃ p, pre.getLast? = some p ∧ isWordChar p = false)
    ∧ (post = [] ∨ ∃ q qs, post = q :: qs ∧ isWordChar q = false)

example : hasExitKeyword "please exit now" = true := by decide
example : hasExitKeyword "Quit" = true := by decide
example : hasExitKeyword "EXIT!" = true := by decide
example : hasExitKeyword "please exist now" = false := by decide
example : hasExitKeyword "exiting" = false := by decide
example : hasExitKeyword "requite" = false := by decide

/-- One ranked alternative of a recognition result. -/
structure RecognitionAlt where
  transcript : String
deriving DecidableEq, Repr

/-- One streaming recognition result: its ranked alternatives and the
final-or-interim flag. -/
structure RecognitionRes where
  alternatives : List RecognitionAlt
  is_final : Bool
deriving DecidableEq, Repr

/-- One streaming recognition response: its consecutive results list. -/
structure RecognitionResponse where
  results : List RecognitionRes
deriving DecidableEq, Repr

/-- The trailing padding `' ' * (num_chars_printed - len(transcript))`
of line 229; Python's negative string repetition yields the empty string,
matching truncated subtraction. -/
def overwriteChars (n : Nat) : String := ⟨List.replicate n ' '⟩

/-- State of `listen_loop` (lines 203-246): the pipeline state holding
the global counters, `num_chars_printed`, the interim display writes
(line 232, carriage return included), the final printed lines (line 237),
the transcripts dispatched to `translate_text` (line 244), whether
`stream.closed` was set (line 242) and whether the loop broke out
(line 243). -/
structure LoopState where
  pipe : PipeState
  num_chars_printed : Nat
  interimLines : List String
  finalLines : List String
  dispatched : List String
  streamClosed : Bool
  halted : Bool
deriving DecidableEq, Repr

/-- The initial `listen_loop` state over `pipe0`. -/
def loop0 : LoopState := ⟨pipe0, 0, [], [], [], false, false⟩

/-- Embeds one iteration of the `for response in responses` loop of
`listen_loop` (lines 203-246), including the generator-expression filter
on lines 205-206 and the re-checks on lines 210-218: a response with an
empty results list, or whose first result has no alternatives, leaves the
state untouched.  `translatedText`, `mp3Length` and `eps` are the oracle
values used if the iteration dispatches a finalized utterance. -/
def listen_loop_step (st : LoopState) (resp : RecognitionResponse)
    (translatedText : String) (mp3Length eps : ℚ) : LoopState :=
  match resp.results with
  | [] => st
  | result :: _ =>
    match result.alternatives with
    | [] => st
    | top :: _ =>
      let transcript := top.transcript
      let overwrite := overwriteChars (st.num_chars_printed - transcript.length)
      if result.is_final = false then
        { st with
            interimLines := st.interimLines ++ [transcript ++ overwrite ++ "\r"],
            num_chars_printed := transcript.length }
      else
        let st1 := { st with finalLines := st.finalLines ++ [transcript ++ overwrite] }
        if hasExitKeyword transcript then
          { st1 with streamClosed := true, halted := true }
        else
          { st1 with
              pipe := listen_dispatch st1.pipe
                ⟨transcript, translatedText, mp3Length, eps⟩,
              dispatched := st1.dispatched ++ [transcript],
              num_chars_printed := 0 }

/-- A response whose only result is an interim one with a single
alternative carrying `t`. -/
def interimResp (t : String) : RecognitionResponse := ⟨[⟨[⟨t⟩], false⟩]⟩

/-- A response whose only result is a final one with a single alternative
carrying `t`. -/
def finalResp (t : String) : RecognitionResponse := ⟨[⟨[⟨t⟩], true⟩]⟩

example :
    (listen_loop_step loop0 (finalResp "time to exit") "x" 1 0).halted = true := by
  decide

example :
    (listen_loop_step loop0 (finalResp "hello") "bonjour" 1 0).pipe =
      ⟨1, 1, [0], [0], ["bonjour"]⟩ := by decide

lemma drainLoop_decomp (k : Nat) :
    ∀ buf : List QItem, (drainLoop buf k).2.2 = false →
      ∃ pre, buf = pre ++ (drainLoop buf k).2.1
        ∧ (∀ x ∈ pre, x.isSome = true)
        ∧ (drainLoop buf k).1 = pre.filterMap id := by
  induction k with
  | zero => intro buf _; exact ⟨[], by simp [drainLoop]⟩
  | succ k ih =>
    intro buf h
    match buf with
    | [] => exact ⟨[], by simp [drainLoop]⟩
    | none :: rest => simp [drainLoop] at h
    | some c :: rest =>
      have h' : (drainLoop rest k).2.2 = false := by
        simpa [drainLoop] using h
      obtain ⟨pre, hpre, hsome, hchunks⟩ := ih rest h'
      refine ⟨some c :: pre, ?_, ?_, ?_⟩
      · simpa [drainLoop] using hpre
      · intro x hx
        rcases List.mem_cons.mp hx with h1 | h2
        · simp [h1]
        · exact hsome x h2
      · simp [drainLoop, hchunks]

lemma takeWhile_append_all {α : Type} (p : α → Bool) :
    ∀ pre l : List α, (∀ x ∈ pre, p x = true) →
      (pre ++ l).takeWhile p = pre ++ l.takeWhile p := by
  intro pre
  induction pre with
  | nil => intro l _; rfl
  | cons a pre ih =>
    intro l h
    have ha : p a = true := h a (List.mem_cons_self a pre)
    have hrest : ∀ x ∈ pre, p x = true := fun x hx => h x (List.mem_cons_of_mem a hx)
    simp [List.takeWhile_cons, ha, ih l hrest]

lemma truncAtSentinel_append (pre l : List QItem)
    (h : ∀ x ∈ pre, x.isSome = true) :
    truncAtSentinel (pre ++ l) = pre.filterMap id ++ truncAtSentinel l := by
  unfold truncAtSentinel
  rw [takeWhile_append_all _ pre l h, List.filterMap_append]

lemma truncAtSentinel_cons_some (c : Nat) (l : List QItem) :
    truncAtSentinel (some c :: l) = c :: truncAtSentinel l := by
  simp [truncAtSentinel, List.takeWhile_cons]

lemma isHeadSegment_nil (ys : List Nat) : isHeadSegment [] ys := ⟨ys, rfl⟩

lemma generatorRun_delivered_head (limit : Int) (fuel : Nat)
    (st : Int) (closeds : Nat → Bool) (times : Nat → Int)
    (avails : Nat → Nat) (buf : List QItem) :
    isHeadSegment
      ((generatorRun limit fuel st closeds times avails buf).delivered).flatten
      (truncAtSentinel buf) := by
  induction fuel generalizing st closeds times avails buf with
  | zero => exact isHeadSegment_nil _
  | succ fuel ih =>
    by_cases hcl : closeds 0
    · simp only [generatorRun, hcl, if_true]
      exact isHeadSegment_nil _
    · by_cases ht : times 0 - st > limit
      · simp only [generatorRun, hcl, if_false, ht, if_true, Bool.false_eq_true]
        exact isHeadSegment_nil _
      · match buf with
        | [] =>
          simp only [generatorRun, hcl, ht, Bool.false_eq_true, if_false]
          exact isHeadSegment_nil _
        | none :: rest =>
          simp only [generatorRun, hcl, ht, Bool.false_eq_true, if_false]
          exact isHeadSegment_nil _
        | some c :: rest =>
          by_cases hs : (drainLoop rest (avails 0)).2.2
          · simp only [generatorRun, hcl, ht, hs, Bool.false_eq_true, if_false,
              if_true]
            exact isHeadSegment_nil _
          · simp only [generatorRun, hcl, ht, hs, Bool.false_eq_true, if_false]
            obtain ⟨pre, hpre, hsome, hchunks⟩ :=
              drainLoop_decomp (avails 0) rest (by simpa using hs)
            obtain ⟨t, htail⟩ := ih st (fun i => closeds (i + 1))
              (fun i => times (i + 1)) (fun i => avails (i + 1))
              (drainLoop rest (avails 0)).2.1
            have htr : truncAtSentinel rest =
                List.filterMap id pre ++
                  truncAtSentinel (drainLoop rest (avails 0)).2.1 := by
              conv_lhs => rw [hpre]
              exact truncAtSentinel_append pre _ hsome
            refine ⟨t, ?_⟩
            rw [truncAtSentinel_cons_some, htr]
            simp only [List.flatten_cons, List.cons_append, List.append_assoc]
            rw [hchunks, htail]

lemma drainLoop_no_sentinel (k : Nat) :
    ∀ buf : List QItem, (∀ x ∈ buf, x.isSome = true) →
      (drainLoop buf k).2.2 = false := by
  induction k with
  | zero => intro buf _; simp [drainLoop]
  | succ k ih =>
    intro buf h
    match buf with
    | [] => simp [drainLoop]
    | none :: rest => simpa using h none (List.mem_cons_self none rest)
    | some c :: rest =>
      simpa [drainLoop] using
        ih rest (fun x hx => h x (List.mem_cons_of_mem (some c) hx))

lemma generatorRun_no_sentinel_decomp (limit : Int) (fuel : Nat) :
    ∀ (st : Int) (closeds : Nat → Bool) (times : Nat → Int)
      (avails : Nat → Nat) (buf : List QItem),
      (∀ x ∈ buf, x.isSome = true) →
      (generatorRun limit fuel st closeds times avails buf).reason ≠ .sentinel
      ∧ ∃ pre,
          buf = pre ++ (generatorRun limit fuel st closeds times avails buf).remaining
          ∧ ((generatorRun limit fuel st closeds times avails buf).delivered).flatten
              = pre.filterMap id := by
  induction fuel with
  | zero =>
    intro st closeds times avails buf _
    exact ⟨by simp [generatorRun], [], by simp [generatorRun]⟩
  | succ fuel ih =>
    intro st closeds times avails buf hbuf
    by_cases hcl : closeds 0
    · simp only [generatorRun, hcl, if_true]
      exact ⟨by simp, [], by simp⟩
    · by_cases ht : times 0 - st > limit
      · simp only [generatorRun, hcl, Bool.false_eq_true, if_false, ht, if_true]
        exact ⟨by simp, [], by simp⟩
      · match buf with
        | [] =>
          simp only [generatorRun, hcl, ht, Bool.false_eq_true, if_false]
          exact ⟨by simp, [], by simp⟩
        | none :: rest =>
          simpa using hbuf none (List.mem_cons_self none rest)
        | some c :: rest =>
          have hrest : ∀ x ∈ rest, x.isSome = true :=
            fun x hx => hbuf x (List.mem_cons_of_mem (some c) hx)
          have hs : (drainLoop rest (avails 0)).2.2 = false :=
            drainLoop_no_sentinel (avails 0) rest hrest
          simp only [generatorRun, hcl, ht, Bool.false_eq_true, if_false, hs]
          obtain ⟨pre, hpre, hsome, hchunks⟩ :=
            drainLoop_decomp (avails 0) rest hs
          have hrem : ∀ x ∈ (drainLoop rest (avails 0)).2.1, x.isSome = true := by
            intro x hx
            exact hrest x (hpre ▸ List.mem_append_right pre hx)
          obtain ⟨hreason, pre2, hpre2, hflat⟩ := ih st (fun i => closeds (i + 1))
            (fun i => times (i + 1)) (fun i => avails (i + 1))
            (drainLoop rest (avails 0)).2.1 hrem
          refine ⟨by simpa using hreason, some c :: pre ++ pre2, ?_, ?_⟩
          · simp only [List.cons_append, List.cons.injEq, true_and]
            conv_lhs => rw [hpre, hpre2]
            simp [List.append_assoc]
          · simp only [List.flatten_cons, List.cons_append, List.append_assoc]
            rw [hchunks, hflat]
            simp [List.filterMap_append]

lemma generatorRun_within_not_expired (limit : Int) (fuel : Nat) :
    ∀ (st : Int) (closeds : Nat → Bool) (times : Nat → Int)
      (avails : Nat → Nat) (buf : List QItem),
      (∀ i, times i - st ≤ limit) →
      (generatorRun limit fuel st closeds times avails buf).reason ≠ .expired := by
  induction fuel with
  | zero => intro st closeds times avails buf _; simp [generatorRun]
  | succ fuel ih =>
    intro st closeds times avails buf htimes
    by_cases hcl : closeds 0
    · simp [generatorRun, hcl]
    · have ht : ¬ times 0 - st > limit := not_lt.mpr (htimes 0)
      match buf with
      | [] => simp [generatorRun, hcl, ht]
      | none :: rest => simp [generatorRun, hcl, ht]
      | some c :: rest =>
        by_cases hs : (drainLoop rest (avails 0)).2.2
        · simp [generatorRun, hcl, ht, hs]
        · simp only [generatorRun, hcl, ht, hs, Bool.false_eq_true, if_false]
          exact ih st (fun i => closeds (i + 1)) (fun i => times (i + 1))
            (fun i => avails (i + 1)) (drainLoop rest (avails 0)).2.1
            (fun i => htimes (i + 1))

lemma generatorRun_expires_at_first_excess (limit : Int) (st : Int) :
    ∀ (k fuel : Nat) (times : Nat → Int) (buf : List QItem),
      (∀ i, i < k → times i - st ≤ limit) → times k - st > limit →
      k < buf.length → k < fuel → (∀ x ∈ buf, x.isSome = true) →
      generatorRun limit fuel st (fun _ => false) times (fun _ => 0) buf =
        ⟨((buf.take k).filterMap id).map (fun c => [c]), buf.drop k,
          times k, .expired⟩ := by
  intro k
  induction k with
  | zero =>
    intro fuel times buf _ hk hlen hfuel _
    match fuel, hfuel with
    | fuel + 1, _ =>
      simp [generatorRun, hk]
  | succ k ih =>
    intro fuel times buf hwithin hk hlen hfuel hbuf
    match fuel, hfuel with
    | fuel + 1, hfuel =>
      match buf, hlen with
      | b :: rest, hlen =>
        have hb : b.isSome = true := hbuf b (List.mem_cons_self b rest)
        match b, hb with
        | some c, _ =>
          have ht : ¬ times 0 - st > limit :=
            not_lt.mpr (hwithin 0 (Nat.succ_pos k))
          have hrec := ih fuel (fun i => times (i + 1)) rest
            (fun i hi => hwithin (i + 1) (Nat.succ_lt_succ hi))
            hk (Nat.lt_of_succ_lt_succ hlen) (Nat.lt_of_succ_lt_succ hfuel)
            (fun x hx => hbuf x (List.mem_cons_of_mem (some c) hx))
          simp only [generatorRun, ht, Bool.false_eq_true, if_false, drainLoop]
          rw [hrec]
          simp [List.take_succ_cons, List.drop_succ_cons]

lemma truncAtSentinel_all_some (l : List QItem)
    (h : ∀ x ∈ l, x.isSome = true) :
    truncAtSentinel l = l.filterMap id := by
  have := truncAtSentinel_append l [] h
  simpa [truncAtSentinel] using this

/-- C2: for every enqueued queue content (chunks, a sentinel, possibly
more chunks buffered behind it) and all oracle behaviours (closed flag,
clock, drain availability, fuel), the chunks delivered by the audio
generator, obtained by flattening the coalesced yielded units, form an
initial segment of the enqueued sequence truncated at the sentinel:
chunks appear in enqueue order, each at most once, and no chunk behind a
sentinel is ever delivered, even when the sentinel shows up mid-drain. -/
theorem c2_generator_delivers_head_segment (limit : Int) (fuel : Nat)
    (st : Int) (closeds : Nat → Bool) (times : Nat → Int)
    (avails : Nat → Nat) (buf : List QItem) :
    isHeadSegment
      ((generatorRun limit fuel st closeds times avails buf).delivered).flatten
      (truncAtSentinel buf) :=
  generatorRun_delivered_head limit fuel st closeds times avails buf

/-- C3: behaviour of the session window.  Scenario A (never before): as
long as every clock observation is within the window duration `D` of the
window start `st`, the generator never ends by expiry.  Scenario B
(continuity): over a sentinel-free buffer, one session delivers exactly
the chunks of the consumed prefix and leaves the unconsumed suffix in the
shared queue, and the follow-up session opened with the stored new window
start continues it, the two together delivering an initial segment of the
enqueued chunks — no chunk lost, none duplicated across the boundary.
Scenario C (ends exactly at the first excess): if the clock observations
stay within the window up to observation `k` and observation `k` exceeds
it, a session draining one chunk per round ends by expiry exactly after
`k` delivered rounds, stores observation `k` as the new window start, and
leaves exactly the chunks from position `k` on unconsumed. -/
theorem c3_session_window_expiry (D st : Int)
    (fuelA : Nat) (clA : Nat → Bool) (tsA : Nat → Int) (avA : Nat → Nat)
    (bufA : List QItem)
    (fuelB : Nat) (clB : Nat → Bool) (tsB : Nat → Int) (avB : Nat → Nat)
    (bufB : List QItem)
    (fuelB2 : Nat) (clB2 : Nat → Bool) (tsB2 : Nat → Int) (avB2 : Nat → Nat)
    (k fuelC : Nat) (tsC : Nat → Int) (bufC : List QItem)
    (hA : ∀ i, tsA i - st ≤ D)
    (hB : ∀ x ∈ bufB, x.isSome = true)
    (hC1 : ∀ i, i < k → tsC i - st ≤ D) (hC2 : tsC k - st > D)
    (hClen : k < bufC.length) (hCfuel : k < fuelC)
    (hCbuf : ∀ x ∈ bufC, x.isSome = true) :
    (generatorRun D fuelA st clA tsA avA bufA).reason ≠ .expired
    ∧ bufB =
        bufB.take (bufB.length -
          (generatorRun D fuelB st clB tsB avB bufB).remaining.length) ++
        (generatorRun D fuelB st clB tsB avB bufB).remaining
    ∧ ((generatorRun D fuelB st clB tsB avB bufB).delivered).flatten =
        (bufB.take (bufB.length -
          (generatorRun D fuelB st clB tsB avB bufB).remaining.length)).filterMap id
    ∧ isHeadSegment
        (((generatorRun D fuelB st clB tsB avB bufB).delivered).flatten ++
          ((generatorRun D fuelB2
              (generatorRun D fuelB st clB tsB avB bufB).finalStart
              clB2 tsB2 avB2
              (generatorRun D fuelB st clB tsB avB bufB).remaining).delivered).flatten)
        (bufB.filterMap id)
    ∧ generatorRun D fuelC st (fun _ => false) tsC (fun _ => 0) bufC =
        ⟨((bufC.take k).filterMap id).map (fun c => [c]), bufC.drop k,
          tsC k, .expired⟩ := by
  set rB := generatorRun D fuelB st clB tsB avB bufB with hrB
  obtain ⟨-, pre, hpre, hflat⟩ :=
    generatorRun_no_sentinel_decomp D fuelB st clB tsB avB bufB hB
  rw [← hrB] at hpre hflat
  have hlenEq := congrArg List.length hpre
  simp only [List.length_append] at hlenEq
  have hlen : bufB.length - rB.remaining.length = pre.length := by omega
  have htake : bufB.take (bufB.length - rB.remaining.length) = pre := by
    rw [hlen, hpre]
    exact List.take_left pre rB.remaining
  have hremsome : ∀ x ∈ rB.remaining, x.isSome = true := by
    intro x hx
    exact hB x (hpre ▸ List.mem_append_right pre hx)
  refine ⟨generatorRun_within_not_expired D fuelA st clA tsA avA bufA hA,
    ?_, ?_, ?_, ?_⟩
  · rw [htake]; exact hpre
  · rw [htake]; exact hflat
  · obtain ⟨t, ht⟩ := generatorRun_delivered_head D fuelB2
      rB.finalStart clB2 tsB2 avB2 rB.remaining
    rw [truncAtSentinel_all_some _ hremsome] at ht
    refine ⟨t, ?_⟩
    rw [List.append_assoc, ht, hflat]
    conv_rhs => rw [hpre]
    simp [List.filterMap_append]
  · exact generatorRun_expires_at_first_excess D st k fuelC tsC bufC
      hC1 hC2 hClen hCfuel hCbuf

/-- Witness for C3: a concrete run where the clock stays within the
window for one observation and exceeds it at the next, so the session
expires after exactly one delivered round, stores the new window start,
and leaves the second chunk for the next session. -/
theorem c3_session_window_expiry_witness :
    (1 : Nat) < 3 ∧
    generatorRun 50 3 0 (fun _ => false) (fun i => 60 * Int.ofNat i)
      (fun _ => 0) [some 7, some 8] = ⟨[[7]], [some 8], 60, .expired⟩ := by
  have h := (c3_session_window_expiry 50 0 3 (fun _ => false) (fun _ => 10)
    (fun _ => 0) [some 1, none] 4 (fun _ => false) (fun i => 40 * Int.ofNat i)
    (fun _ => 0) [some 1, some 2, some 3] 2 (fun _ => false) (fun _ => 90)
    (fun _ => 0) 1 3 (fun i => 60 * Int.ofNat i) [some 7, some 8]
    (fun _ => by norm_num) (by decide)
    (fun i hi => by
      have h0 : i = 0 := Nat.lt_one_iff.mp hi
      subst h0
      norm_num)
    (by norm_num) (by decide) (by decide) (by decide)).2.2.2.2
  exact ⟨by decide, h.trans (by decide)⟩

/-- Counterexample for C1: with both counters at 0 (the program's initial
state) and a clip whose reported length is 5 seconds, the playback gate
is taken and the played counter advances, yet the playback section spends
0 seconds — `playsound` is started with `block=False` and the `while`
loop's body is `PLAY_INC += 1; break`, so the call does not block for the
clip's duration.  The claim's "blocks for at least the clip's known
duration before returning" is false at this input. -/
theorem c1_counterexample :
    pipe0.playInc = pipe0.recordInc
    ∧ (synthesize_text pipe0 "bonjour" 5 0).1.playInc = pipe0.playInc + 1
    ∧ ¬ ((synthesize_text pipe0 "bonjour" 5 0).2 ≥ 5) := by
  refine ⟨rfl, by decide, ?_⟩
  intro h
  have : (synthesize_text pipe0 "bonjour" 5 0).2 = 0 := by decide
  rw [this] at h
  norm_num at h

/-- C1 amended: when the played index equals the just-produced index, the
clip's playback is started (appended to the play list) and the played
index advances by one provided the single duration check still sees
elapsed time `eps` below the clip length; but the call does not play the
clip synchronously: the time it spends is exactly `eps`, strictly less
than the clip's known duration, so it returns before the clip ends
instead of blocking for its length. -/
theorem c1_amended_play_not_blocking (st : PipeState) (text : String)
    (mp3Length eps : ℚ) (hgate : st.playInc = st.recordInc)
    (hlt : eps < mp3Length) :
    (synthesize_text st text mp3Length eps).1.playInc = st.playInc + 1
    ∧ (synthesize_text st text mp3Length eps).1.playedFiles =
        st.playedFiles ++ [st.playInc]
    ∧ (synthesize_text st text mp3Length eps).2 = eps
    ∧ (synthesize_text st text mp3Length eps).2 < mp3Length := by
  simp [synthesize_text, hgate, hlt]

/-- Witness for the amended C1 at a concrete input. -/
theorem c1_amended_play_not_blocking_witness :
    pipe0.playInc = pipe0.recordInc ∧ (0 : ℚ) < 5
    ∧ (synthesize_text pipe0 "x" 5 0).1.playInc = pipe0.playInc + 1 :=
  ⟨rfl, by norm_num,
    (c1_amended_play_not_blocking pipe0 "x" 5 0 rfl (by norm_num)).1⟩

lemma synthesize_text_effects (st : PipeState) (text : String)
    (mp3Length eps : ℚ) :
    (synthesize_text st text mp3Length eps).1.recordInc = st.recordInc
    ∧ (synthesize_text st text mp3Length eps).1.playInc =
        (if st.playInc = st.recordInc ∧ eps < mp3Length then st.playInc + 1
          else st.playInc)
    ∧ (synthesize_text st text mp3Length eps).1.saved =
        st.saved ++ [st.recordInc]
    ∧ (synthesize_text st text mp3Length eps).1.playedFiles =
        (if st.playInc = st.recordInc then st.playedFiles ++ [st.playInc]
          else st.playedFiles)
    ∧ (synthesize_text st text mp3Length eps).1.synthInputs =
        st.synthInputs ++ [text] := by
  by_cases hg : st.playInc = st.recordInc
  · by_cases hd : eps < mp3Length
    · simp [synthesize_text, hg, hd]
    · simp [synthesize_text, hg, hd]
  · simp [synthesize_text, hg]

/-- The pipeline invariant that holds at utterance boundaries: the played
counter never exceeds the produced counter, the clips handed to playback
form a strictly increasing index sequence bounded by the played counter,
and when the counters agree every already-played index lies strictly
below them. -/
def pipeInv (st : PipeState) : Prop :=
  st.playInc ≤ st.recordInc
  ∧ List.Chain' (fun a b => a < b) st.playedFiles
  ∧ (∀ x ∈ st.playedFiles, x ≤ st.playInc)
  ∧ (st.playInc = st.recordInc → ∀ x ∈ st.playedFiles, x < st.playInc)

lemma pipeInv_pipe0 : pipeInv pipe0 := by
  refine ⟨le_refl 0, ?_, ?_, ?_⟩ <;> simp [pipe0]

lemma chain_append_lt (l : List Nat) (m : Nat)
    (h : ∀ x ∈ l, x < m) (hc : List.Chain' (fun a b => a < b) l) :
    List.Chain' (fun a b => a < b) (l ++ [m]) := by
  rw [List.chain'_append]
  refine ⟨hc, List.chain'_singleton m, ?_⟩
  intro x hx y hy
  have hxl : x ∈ l := List.mem_of_mem_getLast? hx
  have hym : m = y := by simpa using hy
  exact hym ▸ h x hxl

lemma listen_dispatch_inv (st : PipeState) (p : UttParams)
    (h : pipeInv st) : pipeInv (listen_dispatch st p) := by
  obtain ⟨hle, hchain, hbound, hstrict⟩ := h
  obtain ⟨hrec, hplay, -, hplayed, -⟩ :=
    synthesize_text_effects st (htmlUnescape p.translated) p.mp3Length p.eps
  have hd : listen_dispatch st p =
      { (synthesize_text st (htmlUnescape p.translated) p.mp3Length p.eps).1 with
          recordInc :=
            (synthesize_text st (htmlUnescape p.translated) p.mp3Length p.eps).1.recordInc
              + 1 } := rfl
  by_cases hg : st.playInc = st.recordInc
  · by_cases hdur : p.eps < p.mp3Length
    · have hplay' :
          (synthesize_text st (htmlUnescape p.translated) p.mp3Length p.eps).1.playInc
            = st.playInc + 1 := by
        rw [hplay, if_pos ⟨hg, hdur⟩]
      have hplayed' :
          (synthesize_text st (htmlUnescape p.translated) p.mp3Length p.eps).1.playedFiles
            = st.playedFiles ++ [st.playInc] := by
        rw [hplayed, if_pos hg]
      refine ⟨?_, ?_, ?_, ?_⟩ <;> simp only [hd, hrec, hplay', hplayed']
      · omega
      · exact chain_append_lt st.playedFiles st.playInc (hstrict hg) hchain
      · intro x hx
        rcases List.mem_append.mp hx with h1 | h2
        · exact le_trans (hbound x h1) (Nat.le_succ _)
        · simp at h2
          omega
      · intro heq x hx
        rcases List.mem_append.mp hx with h1 | h2
        · exact Nat.lt_succ_of_le (hbound x h1)
        · simp at h2
          omega
    · have hplay' :
          (synthesize_text st (htmlUnescape p.translated) p.mp3Length p.eps).1.playInc
            = st.playInc := by
        rw [hplay, if_neg]
        intro hc
        exact hdur hc.2
      have hplayed' :
          (synthesize_text st (htmlUnescape p.translated) p.mp3Length p.eps).1.playedFiles
            = st.playedFiles ++ [st.playInc] := by
        rw [hplayed, if_pos hg]
      refine ⟨?_, ?_, ?_, ?_⟩ <;> simp only [hd, hrec, hplay', hplayed']
      · omega
      · exact chain_append_lt st.playedFiles st.playInc (hstrict hg) hchain
      · intro x hx
        rcases List.mem_append.mp hx with h1 | h2
        · exact hbound x h1
        · simp at h2
          omega
      · intro heq
        omega
  · have hplay' :
        (synthesize_text st (htmlUnescape p.translated) p.mp3Length p.eps).1.playInc
          = st.playInc := by
      rw [hplay, if_neg]
      intro hc
      exact hg hc.1
    have hplayed' :
        (synthesize_text st (htmlUnescape p.translated) p.mp3Length p.eps).1.playedFiles
          = st.playedFiles := by
      rw [hplayed, if_neg hg]
    refine ⟨?_, ?_, ?_, ?_⟩ <;> simp only [hd, hrec, hplay', hplayed']
    · omega
    · exact hchain
    · exact hbound
    · intro heq
      omega

lemma runUtts_inv : ∀ (ps : List UttParams) (st : PipeState),
    pipeInv st → pipeInv (runUtts st ps) := by
  intro ps
  induction ps with
  | nil => intro st h; exact h
  | cons p rest ih =>
    intro st h
    exact ih (listen_dispatch st p) (listen_dispatch_inv st p h)

lemma uttStates_inv : ∀ (ps : List UttParams) (st : PipeState),
    pipeInv st → ∀ s ∈ uttStates st ps, pipeInv s := by
  intro ps
  induction ps with
  | nil =>
    intro st h s hs
    simp [uttStates, List.scanl] at hs
    exact hs ▸ h
  | cons p rest ih =>
    intro st h s hs
    simp only [uttStates, List.scanl] at hs
    rcases List.mem_cons.mp hs with h1 | h2
    · exact h1 ▸ h
    · exact ih (listen_dispatch st p) (listen_dispatch_inv st p h) s h2

lemma fineStates_play_bound : ∀ (ps : List UttParams) (st : PipeState),
    pipeInv st → ∀ s ∈ fineStates st ps, s.playInc ≤ s.recordInc + 1 := by
  intro ps
  induction ps with
  | nil =>
    intro st h s hs
    simp [fineStates] at hs
    subst hs
    exact le_trans h.1 (Nat.le_succ _)
  | cons p rest ih =>
    intro st h s hs
    obtain ⟨hrec, hplay, -, -, -⟩ :=
      synthesize_text_effects st (htmlUnescape p.translated) p.mp3Length p.eps
    simp only [fineStates, List.mem_cons] at hs
    rcases hs with h1 | h2 | h3
    · exact h1 ▸ le_trans h.1 (Nat.le_succ _)
    · subst h2
      rw [show (translate_text st p.text p.translated p.mp3Length p.eps).1 =
        (synthesize_text st (htmlUnescape p.translated) p.mp3Length p.eps).1 from rfl]
      rw [hrec, hplay]
      split
      · omega
      · exact le_trans h.1 (Nat.le_succ _)
    · have hmid : ({ (translate_text st p.text p.translated p.mp3Length p.eps).1 with
          recordInc :=
            (translate_text st p.text p.translated p.mp3Length p.eps).1.recordInc + 1 }
            : PipeState) = listen_dispatch st p := rfl
      rw [hmid] at h3
      exact ih (listen_dispatch st p) (listen_dispatch_inv st p h) s h3

lemma listen_dispatch_behind (st : PipeState) (p : UttParams)
    (h : st.playInc < st.recordInc) :
    listen_dispatch st p =
      ⟨st.recordInc + 1, st.playInc, st.saved ++ [st.recordInc],
        st.playedFiles, st.synthInputs ++ [htmlUnescape p.translated]⟩ := by
  have hg : ¬ st.playInc = st.recordInc := Nat.ne_of_lt h
  simp [listen_dispatch, translate_text, synthesize_text, hg]

lemma runUtts_frozen : ∀ (ps : List UttParams) (st : PipeState),
    st.playInc < st.recordInc →
    (runUtts st ps).playInc = st.playInc
    ∧ (runUtts st ps).playedFiles = st.playedFiles
    ∧ (runUtts st ps).recordInc = st.recordInc + ps.length
    ∧ (runUtts st ps).saved = st.saved ++ List.range' st.recordInc ps.length
    ∧ (runUtts st ps).synthInputs =
        st.synthInputs ++ ps.map (fun p => htmlUnescape p.translated) := by
  intro ps
  induction ps with
  | nil => intro st _; simp [runUtts]
  | cons p rest ih =>
    intro st h
    have hstep := listen_dispatch_behind st p h
    have hrun : runUtts st (p :: rest) = runUtts (listen_dispatch st p) rest := rfl
    have h' : (listen_dispatch st p).playInc < (listen_dispatch st p).recordInc := by
      rw [hstep]
      exact Nat.lt_succ_of_lt h
    obtain ⟨i1, i2, i3, i4, i5⟩ := ih (listen_dispatch st p) h'
    rw [hstep] at i1 i2 i3 i4 i5
    refine ⟨by rw [hrun, hstep, i1], by rw [hrun, hstep, i2],
      by rw [hrun, hstep, i3]; simp only [List.length_cons]; omega, ?_, ?_⟩
    · rw [hrun, hstep, i4]
      simp only [List.length_cons, List.range'_succ, List.append_assoc,
        List.singleton_append]
    · rw [hrun, hstep, i5]
      simp only [List.map_cons, List.append_assoc, List.singleton_append]

/-- Counterexample for C5: dispatching one utterance from the initial
state, the counter-granularity trace runs (produced, played) =
(0,0) → (0,1) → (1,1): between the `PLAY_INC += 1` of line 189 and the
`RECORD_INC += 1` of line 245 the played counter exceeds the produced
counter, so "played ≤ produced at every point" fails. -/
theorem c5_counterexample :
    (fineStates pipe0 [⟨"hi", "hola", 1, 0⟩]).map
        (fun s => (s.recordInc, s.playInc)) = [(0, 0), (0, 1), (1, 1)]
    ∧ ¬ (∀ s ∈ fineStates pipe0 [⟨"hi", "hola", 1, 0⟩],
          s.playInc ≤ s.recordInc) := by
  constructor
  · decide
  · intro h
    have := h ⟨0, 1, [0], [0], ["hola"]⟩ (by decide)
    exact absurd this (by decide)

/-- C5 amended: played ≤ produced holds at every utterance boundary; at
counter granularity the played counter can transiently exceed the
produced counter by exactly one (between the play advance on line 189 and
the produced advance on line 245), so played ≤ produced + 1 at every
point; the clip indices handed to playback form a strictly increasing
sequence (strict in-order playback); and the played counter only advances
in a `synthesize_text` call whose gate sees the two counters equal. -/
theorem c5_amended_counter_invariant (ps : List UttParams) (st2 : PipeState)
    (t2 : String) (l2 e2 : ℚ)
    (hadv : (synthesize_text st2 t2 l2 e2).1.playInc ≠ st2.playInc) :
    (∀ s ∈ uttStates pipe0 ps, s.playInc ≤ s.recordInc)
    ∧ (∀ s ∈ fineStates pipe0 ps, s.playInc ≤ s.recordInc + 1)
    ∧ List.Chain' (fun a b => a < b) (runUtts pipe0 ps).playedFiles
    ∧ st2.playInc = st2.recordInc := by
  refine ⟨fun s hs => (uttStates_inv ps pipe0 pipeInv_pipe0 s hs).1,
    fineStates_play_bound ps pipe0 pipeInv_pipe0,
    (runUtts_inv ps pipe0 pipeInv_pipe0).2.1, ?_⟩
  by_contra hg
  obtain ⟨-, hplay, -, -, -⟩ := synthesize_text_effects st2 t2 l2 e2
  apply hadv
  rw [hplay, if_neg]
  intro hc
  exact hg hc.1

/-- Witness for the amended C5: a call that does advance the played
counter indeed saw the two counters equal. -/
theorem c5_amended_counter_invariant_witness :
    (synthesize_text pipe0 "x" 5 0).1.playInc ≠ pipe0.playInc
    ∧ pipe0.playInc = pipe0.recordInc :=
  ⟨by decide, (c5_amended_counter_invariant [] pipe0 "x" 5 0 (by decide)).2.2.2⟩

/-- C6: once the played index is strictly behind the produced index at
the moment an utterance is dispatched, every subsequent utterance is
still synthesized (its decoded translation reaches the synthesis backend)
and saved under the next consecutive index, but its play step is skipped:
the played index never changes again and no clip is ever handed to
playback again — playback falls permanently behind. -/
theorem c6_playback_permanently_behind (st : PipeState)
    (ps : List UttParams) (h : st.playInc < st.recordInc) :
    (runUtts st ps).playInc = st.playInc
    ∧ (runUtts st ps).playedFiles = st.playedFiles
    ∧ (runUtts st ps).recordInc = st.recordInc + ps.length
    ∧ (runUtts st ps).saved = st.saved ++ List.range' st.recordInc ps.length
    ∧ (runUtts st ps).synthInputs =
        st.synthInputs ++ ps.map (fun p => htmlUnescape p.translated) :=
  runUtts_frozen ps st h

/-- Witness for C6 at a concrete lagging state. -/
theorem c6_playback_permanently_behind_witness :
    (⟨1, 0, [0], [], []⟩ : PipeState).playInc <
      (⟨1, 0, [0], [], []⟩ : PipeState).recordInc
    ∧ (runUtts ⟨1, 0, [0], [], []⟩ [⟨"b", "c", 2, 0⟩]).playInc =
        (⟨1, 0, [0], [], []⟩ : PipeState).playInc :=
  ⟨by decide,
    (c6_playback_permanently_behind ⟨1, 0, [0], [], []⟩ [⟨"b", "c", 2, 0⟩]
      (by decide)).1⟩

/-- C10: per `synthesize_text` call the played counter moves by exactly
one when the gate and the duration check both pass and by zero otherwise
(the loop body breaks unconditionally, so never more than once); with the
gate taken but a clip whose reported duration is not strictly positive,
the check `time.time() - start < mp3Length` fails (elapsed time is
nonnegative), the played counter stays put, the produced counter still
advances, and every later clip's playback is permanently disabled: the
played counter and the play list never change again. -/
theorem c10_played_advance_conditions (st : PipeState) (t1 : String)
    (l1 e1 : ℚ) (p2 : UttParams) (ps : List UttParams)
    (hgate : st.playInc = st.recordInc) (hlen : p2.mp3Length ≤ 0)
    (heps : 0 ≤ p2.eps) :
    (synthesize_text st t1 l1 e1).1.playInc =
      st.playInc + (if st.playInc = st.recordInc ∧ e1 < l1 then 1 else 0)
    ∧ (listen_dispatch st p2).playInc = st.playInc
    ∧ (listen_dispatch st p2).recordInc = st.recordInc + 1
    ∧ (runUtts (listen_dispatch st p2) ps).playInc = st.playInc
    ∧ (runUtts (listen_dispatch st p2) ps).playedFiles =
        (listen_dispatch st p2).playedFiles := by
  have hnd : ¬ p2.eps < p2.mp3Length := not_lt.mpr (le_trans hlen heps)
  obtain ⟨hrec1, hplay1, -, -, -⟩ := synthesize_text_effects st t1 l1 e1
  obtain ⟨hrec2, hplay2, -, -, -⟩ :=
    synthesize_text_effects st (htmlUnescape p2.translated) p2.mp3Length p2.eps
  have hd : listen_dispatch st p2 =
      { (synthesize_text st (htmlUnescape p2.translated) p2.mp3Length p2.eps).1 with
          recordInc :=
            (synthesize_text st (htmlUnescape p2.translated)
              p2.mp3Length p2.eps).1.recordInc + 1 } := rfl
  have hplay2' : (listen_dispatch st p2).playInc = st.playInc := by
    rw [hd]
    show (synthesize_text st (htmlUnescape p2.translated)
      p2.mp3Length p2.eps).1.playInc = st.playInc
    rw [hplay2, if_neg]
    intro hc
    exact hnd hc.2
  have hrec2' : (listen_dispatch st p2).recordInc = st.recordInc + 1 := by
    rw [hd]
    show (synthesize_text st (htmlUnescape p2.translated)
      p2.mp3Length p2.eps).1.recordInc + 1 = st.recordInc + 1
    rw [hrec2]
  have hbehind : (listen_dispatch st p2).playInc <
      (listen_dispatch st p2).recordInc := by
    rw [hplay2', hrec2', hgate]
    exact Nat.lt_succ_self _
  obtain ⟨f1, f2, -, -, -⟩ := runUtts_frozen ps (listen_dispatch st p2) hbehind
  refine ⟨?_, hplay2', hrec2', by rw [f1, hplay2'], f2⟩
  rw [hplay1]
  split
  · omega
  · omega

/-- Witness for C10: gate taken on a clip of reported length 0; the
played counter is not advanced and stays frozen for the next clip. -/
theorem c10_played_advance_conditions_witness :
    pipe0.playInc = pipe0.recordInc ∧ ((0 : ℚ) ≤ 0)
    ∧ (runUtts (listen_dispatch pipe0 ⟨"y", "z", 0, 0⟩)
        [⟨"w", "v", 3, 0⟩]).playInc = pipe0.playInc :=
  ⟨rfl, le_refl 0,
    (c10_played_advance_conditions pipe0 "a" 1 0 ⟨"y", "z", 0, 0⟩
      [⟨"w", "v", 3, 0⟩] rfl (by norm_num) (by norm_num)).2.2.2.1⟩

lemma unesc_amp (xs : List Char) :
    htmlUnescapeList ('&' :: 'a' :: 'm' :: 'p' :: ';' :: xs) =
      '&' :: htmlUnescapeList xs := rfl

lemma unesc_lt (xs : List Char) :
    htmlUnescapeList ('&' :: 'l' :: 't' :: ';' :: xs) =
      '<' :: htmlUnescapeList xs := rfl

lemma unesc_gt (xs : List Char) :
    htmlUnescapeList ('&' :: 'g' :: 't' :: ';' :: xs) =
      '>' :: htmlUnescapeList xs := rfl

lemma unesc_quot (xs : List Char) :
    htmlUnescapeList ('&' :: 'q' :: 'u' :: 'o' :: 't' :: ';' :: xs) =
      '"' :: htmlUnescapeList xs := rfl

lemma unesc_apos (xs : List Char) :
    htmlUnescapeList ('&' :: '#' :: 'x' :: '2' :: '7' :: ';' :: xs) =
      '\'' :: htmlUnescapeList xs := rfl

set_option maxHeartbeats 2000000 in
lemma unesc_cons_ne (c : Char) (xs : List Char) (h : ¬ c = '&') :
    htmlUnescapeList (c :: xs) = c :: htmlUnescapeList xs := by
  rw [htmlUnescapeList.eq_def]
  split
  · simp_all
  · simp_all
  · simp_all
  · simp_all
  · simp_all
  · simp_all
  · simp_all

lemma htmlUnescapeList_htmlEscapeList (cs : List Char) :
    htmlUnescapeList (htmlEscapeList cs) = cs := by
  induction cs with
  | nil => rfl
  | cons c rest ih =>
    by_cases h1 : c = '&'
    · subst h1
      rw [show htmlEscapeList ('&' :: rest) =
        '&' :: 'a' :: 'm' :: 'p' :: ';' :: htmlEscapeList rest from rfl]
      rw [unesc_amp, ih]
    · by_cases h2 : c = '<'
      · subst h2
        rw [show htmlEscapeList ('<' :: rest) =
          '&' :: 'l' :: 't' :: ';' :: htmlEscapeList rest from rfl]
        rw [unesc_lt, ih]
      · by_cases h3 : c = '>'
        · subst h3
          rw [show htmlEscapeList ('>' :: rest) =
            '&' :: 'g' :: 't' :: ';' :: htmlEscapeList rest from rfl]
          rw [unesc_gt, ih]
        · by_cases h4 : c = '"'
          · subst h4
            rw [show htmlEscapeList ('"' :: rest) =
              '&' :: 'q' :: 'u' :: 'o' :: 't' :: ';' :: htmlEscapeList rest from
              rfl]
            rw [unesc_quot, ih]
          · by_cases h5 : c = '\''
            · subst h5
              rw [show htmlEscapeList ('\'' :: rest) =
                '&' :: '#' :: 'x' :: '2' :: '7' :: ';' :: htmlEscapeList rest from
                rfl]
              rw [unesc_apos, ih]
            · have he : htmlEscapeList (c :: rest) = c :: htmlEscapeList rest := by
                simp [htmlEscapeList, escapeChar, h1, h2, h3, h4, h5]
              rw [he, unesc_cons_ne c _ h1, ih]

/-- C8: the raw translation-backend response is HTML-entity-decoded
before it reaches the synthesis step: the text recorded as handed to
synthesis is exactly the unescaped response; decoding inverts
HTML-escaping on any original text (so escaping then the applied decode
is the identity); and in particular a response containing the entity
for the ampersand decodes to the bare ampersand. -/
theorem c8_translation_unescaped_before_synthesis (st : PipeState)
    (text translatedText : String) (mp3Length eps : ℚ) (orig : String) :
    (translate_text st text translatedText mp3Length eps).1.synthInputs =
      st.synthInputs ++ [htmlUnescape translatedText]
    ∧ htmlUnescape (htmlEscape orig) = orig
    ∧ htmlUnescape "&amp;" = "&" := by
  obtain ⟨-, -, -, -, h5⟩ :=
    synthesize_text_effects st (htmlUnescape translatedText) mp3Length eps
  refine ⟨h5, ?_, by decide⟩
  show String.mk (htmlUnescapeList (htmlEscapeList orig.data)) = orig
  rw [htmlUnescapeList_htmlEscapeList]

/-- C7: after an interim result with transcript `p`, the display update
for a following interim transcript `c` is `c` padded with exactly
`p.length - c.length` (truncated subtraction) trailing spaces before the
carriage return: the padding length equals `max(0, len p - len c)` — so
it erases every leftover character of a longer previous line — and it is
empty, not an error, when `c` is at least as long as `p` (Python's
negative string repetition yields the empty string). -/
lemma listen_loop_step_interim (st : LoopState) (t : String)
    (tr : String) (l e : ℚ) :
    listen_loop_step st (interimResp t) tr l e =
      { st with
          interimLines := st.interimLines ++
            [t ++ overwriteChars (st.num_chars_printed - t.length) ++ "\r"],
          num_chars_printed := t.length } := rfl

theorem c7_interim_overwrite_padding (st : LoopState) (p c : String)
    (tr : String) (l e : ℚ) :
    (listen_loop_step (listen_loop_step st (interimResp p) tr l e)
        (interimResp c) tr l e).interimLines =
      (listen_loop_step st (interimResp p) tr l e).interimLines ++
        [c ++ overwriteChars (p.length - c.length) ++ "\r"]
    ∧ ((p.length - c.length : Nat) : Int) =
        max 0 ((p.length : Int) - (c.length : Int))
    ∧ (overwriteChars (p.length - c.length)).length = p.length - c.length
    ∧ (p.length ≤ c.length → overwriteChars (p.length - c.length) = "") := by
  refine ⟨?_, by omega, ?_, ?_⟩
  · rw [listen_loop_step_interim st p tr l e, listen_loop_step_interim]
  · show (List.replicate (p.length - c.length) ' ').length = p.length - c.length
    exact List.length_replicate _ _
  · intro h
    rw [Nat.sub_eq_zero_of_le h]
    rfl

/-- Witness for C7 at the spec's example pair: previous interim
"hello world", current interim "hel" needs 8 spaces; previous "hel",
current "hello world" needs none. -/
theorem c7_interim_overwrite_padding_witness :
    "hel".length ≤ "hello world".length
    ∧ overwriteChars ("hel".length - "hello world".length) = ""
    ∧ overwriteChars ("hello world".length - "hel".length) = "        " :=
  ⟨by decide,
    (c7_interim_overwrite_padding loop0 "hel" "hello world" "" 1 0).2.2.2
      (by decide),
    by decide⟩

/-- C9: a recognition response whose results list is empty, or whose
first result has no alternatives, is skipped silently: the loop state —
counters, interim line length, display output, dispatches and the
stream-closed flag — is left entirely unchanged. -/
theorem c9_empty_results_skipped (st : LoopState)
    (resp : RecognitionResponse) (tr : String) (l e : ℚ)
    (h : resp.results = [] ∨
      ∃ r rs, resp.results = r :: rs ∧ r.alternatives = []) :
    listen_loop_step st resp tr l e = st := by
  rcases h with h | ⟨r, rs, hr, ha⟩
  · simp [listen_loop_step, h]
  · simp [listen_loop_step, hr, ha]

/-- Witness for C9: a concrete empty response leaves the initial loop
state unchanged. -/
theorem c9_empty_results_skipped_witness :
    ((⟨[]⟩ : RecognitionResponse).results = [] ∨
      ∃ r rs, (⟨[]⟩ : RecognitionResponse).results = r :: rs
        ∧ r.alternatives = [])
    ∧ listen_loop_step loop0 ⟨[]⟩ "" 1 0 = loop0 :=
  ⟨Or.inl rfl, c9_empty_results_skipped loop0 ⟨[]⟩ "" 1 0 (Or.inl rfl)⟩

/-- The trailing word boundary holds before `post`. -/
def boundaryAfterOk (post : List Char) : Prop :=
  post = [] ∨ ∃ q qs, post = q :: qs ∧ isWordChar q = false

/-- The leading word boundary holds for an occurrence placed after the
consumed prefix `pre`, where `prev` is the character right before `pre`
(`none` at the start of the string). -/
def boundaryBeforeOk (prev : Option Char) (pre : List Char) : Prop :=
  if pre = [] then boundaryBefore prev = true
  else ∃ p, pre.getLast? = some p ∧ isWordChar p = false

lemma kwMatchAt_iff (kw' : List Char) :
    ∀ cs, kwMatchAt kw' cs = true ↔
      ∃ kw post, cs = kw ++ post ∧ kw.map Char.toLower = kw'
        ∧ boundaryAfterOk post := by
  induction kw' with
  | nil =>
    intro cs
    constructor
    · intro h
      refine ⟨[], cs, rfl, rfl, ?_⟩
      match cs, h with
      | [], _ => exact Or.inl rfl
      | c :: rest, h =>
        refine Or.inr ⟨c, rest, rfl, ?_⟩
        simpa [kwMatchAt] using h
    · rintro ⟨kw, post, hcs, hmap, hafter⟩
      have hkw : kw = [] := by simpa using hmap
      subst hkw
      simp only [List.nil_append] at hcs
      subst hcs
      rcases hafter with h | ⟨q, qs, hpost, hq⟩
      · subst h; rfl
      · subst hpost
        simpa [kwMatchAt] using hq
  | cons k ks ih =>
    intro cs
    constructor
    · intro h
      match cs, h with
      | c :: rest, h =>
        have hc : c.toLower = k := by
          have := (Bool.and_eq_true _ _).mp h
          exact beq_iff_eq.mp this.1
        have hrest : kwMatchAt ks rest = true :=
          ((Bool.and_eq_true _ _).mp h).2
        obtain ⟨kw, post, hr, hmap, hafter⟩ := (ih rest).mp hrest
        exact ⟨c :: kw, post, by rw [hr]; rfl, by simp [hmap, hc], hafter⟩
    · rintro ⟨kw, post, hcs, hmap, hafter⟩
      match kw, hmap with
      | c :: kw1, hmap =>
        simp only [List.map_cons, List.cons.injEq] at hmap
        subst hcs
        show kwMatchAt (k :: ks) (c :: (kw1 ++ post)) = true
        have h2 : kwMatchAt ks (kw1 ++ post) = true :=
          (ih (kw1 ++ post)).mpr ⟨kw1, post, rfl, hmap.2, hafter⟩
        simp [kwMatchAt, hmap.1, h2]

lemma boundaryBeforeOk_shift (prev : Option Char) (c : Char)
    (pre : List Char) :
    boundaryBeforeOk prev (c :: pre) ↔ boundaryBeforeOk (some c) pre := by
  match pre with
  | [] =>
    simp [boundaryBeforeOk, boundaryBefore]
  | p :: rest =>
    have h : (c :: p :: rest).getLast? = (p :: rest).getLast? :=
      List.getLast?_cons_cons
    simp only [boundaryBeforeOk, List.cons_ne_nil, if_false, h]

lemma searchKeyword_iff :
    ∀ (cs : List Char) (prev : Option Char),
      searchKeyword prev cs = true ↔
        ∃ pre kw post, cs = pre ++ kw ++ post
          ∧ (kw.map Char.toLower = ['e', 'x', 'i', 't'] ∨
              kw.map Char.toLower = ['q', 'u', 'i', 't'])
          ∧ boundaryBeforeOk prev pre
          ∧ boundaryAfterOk post := by
  intro cs
  induction cs with
  | nil =>
    intro prev
    constructor
    · intro h
      exact absurd h (by simp [searchKeyword])
    · rintro ⟨pre, kw, post, hcs, hmap, -, -⟩
      exfalso
      have hpre : pre = [] := by
        cases pre with
        | nil => rfl
        | cons a b => simp at hcs
      subst hpre
      have hkw : kw = [] := by
        cases kw with
        | nil => rfl
        | cons a b => simp at hcs
      subst hkw
      rcases hmap with h | h <;> simp at h
  | cons c rest ih =>
    intro prev
    have hstep : searchKeyword prev (c :: rest) =
        ((boundaryBefore prev &&
          (kwMatchAt ['e', 'x', 'i', 't'] (c :: rest) ||
            kwMatchAt ['q', 'u', 'i', 't'] (c :: rest)))
          || searchKeyword (some c) rest) := rfl
    constructor
    · intro h
      rw [hstep] at h
      rcases (Bool.or_eq_true _ _).mp h with h1 | h2
      · obtain ⟨hb, hk⟩ := (Bool.and_eq_true _ _).mp h1
        rcases (Bool.or_eq_true _ _).mp hk with hk | hk
        · obtain ⟨kw, post, hdec, hmap, hafter⟩ :=
            (kwMatchAt_iff ['e', 'x', 'i', 't'] (c :: rest)).mp hk
          exact ⟨[], kw, post, by simpa using hdec, Or.inl hmap,
            by simpa [boundaryBeforeOk] using hb, hafter⟩
        · obtain ⟨kw, post, hdec, hmap, hafter⟩ :=
            (kwMatchAt_iff ['q', 'u', 'i', 't'] (c :: rest)).mp hk
          exact ⟨[], kw, post, by simpa using hdec, Or.inr hmap,
            by simpa [boundaryBeforeOk] using hb, hafter⟩
      · obtain ⟨pre, kw, post, hr, hmap, hbefore, hafter⟩ :=
          (ih (some c)).mp h2
        exact ⟨c :: pre, kw, post, by rw [hr]; rfl, hmap,
          (boundaryBeforeOk_shift prev c pre).mpr hbefore, hafter⟩
    · rintro ⟨pre, kw, post, hcs, hmap, hbefore, hafter⟩
      rw [hstep, Bool.or_eq_true]
      cases pre with
      | nil =>
        left
        rw [Bool.and_eq_true]
        have hb : boundaryBefore prev = true := by
          simpa [boundaryBeforeOk] using hbefore
        refine ⟨hb, ?_⟩
        rw [Bool.or_eq_true]
        simp only [List.nil_append] at hcs
        rcases hmap with hm | hm
        · exact Or.inl ((kwMatchAt_iff _ _).mpr ⟨kw, post, hcs, hm, hafter⟩)
        · exact Or.inr ((kwMatchAt_iff _ _).mpr ⟨kw, post, hcs, hm, hafter⟩)
      | cons a pre2 =>
        right
        have hinj : c = a ∧ rest = pre2 ++ kw ++ post := by
          have h2 : c :: rest = a :: (pre2 ++ kw ++ post) := by simpa using hcs
          exact ⟨(List.cons.injEq _ _ _ _ ▸ h2).1,
            (List.cons.injEq _ _ _ _ ▸ h2).2⟩
        obtain ⟨hc, hrest⟩ := hinj
        subst hc
        exact (ih (some c)).mpr ⟨pre2, kw, post, hrest, hmap,
          (boundaryBeforeOk_shift prev c pre2).mp hbefore, hafter⟩

lemma boundaryBeforeOk_none_iff (pre : List Char) :
    boundaryBeforeOk none pre ↔
      (pre = [] ∨ ∃ p, pre.getLast? = some p ∧ isWordChar p = false) := by
  by_cases hp : pre = []
  · subst hp
    simp [boundaryBeforeOk, boundaryBefore]
  · simp [boundaryBeforeOk, hp]

lemma hasExitKeyword_iff_keywordSpec (s : String) :
    hasExitKeyword s = true ↔ keywordSpec s := by
  unfold hasExitKeyword keywordSpec
  rw [searchKeyword_iff]
  refine exists_congr fun pre => exists_congr fun kw =>
    exists_congr fun post => ?_
  simp only [boundaryAfterOk, boundaryBeforeOk_none_iff]

lemma listen_loop_step_final (st : LoopState) (t : String)
    (tr : String) (l e : ℚ) :
    listen_loop_step st (finalResp t) tr l e =
      (if hasExitKeyword t then
        { st with
            finalLines := st.finalLines ++
              [t ++ overwriteChars (st.num_chars_printed - t.length)],
            streamClosed := true, halted := true }
      else
        { st with
            finalLines := st.finalLines ++
              [t ++ overwriteChars (st.num_chars_printed - t.length)],
            pipe := listen_dispatch st.pipe ⟨t, tr, l, e⟩,
            dispatched := st.dispatched ++ [t],
            num_chars_printed := 0 }) := by
  by_cases h : hasExitKeyword t <;>
    simp [listen_loop_step, finalResp, h]

/-- C4: the transcript processor signals termination on a final result
exactly when the transcript contains `exit` or `quit` as a
case-insensitive word-boundary match — the search is characterized
declaratively as a split `pre ++ kw ++ post` with `kw` spelling the
keyword up to case and word boundaries on both sides, so "please exit
now" terminates and "please exist now" does not.  On a match the stream
is marked closed, the loop breaks, and nothing is dispatched (produced
counter unchanged); on a non-match the transcript is dispatched and the
produced counter increments exactly once. -/
theorem c4_exit_keyword_gates_termination (st : LoopState) (t : String)
    (tr : String) (l e : ℚ) :
    (listen_loop_step st (finalResp t) tr l e).streamClosed =
      (if hasExitKeyword t then true else st.streamClosed)
    ∧ (listen_loop_step st (finalResp t) tr l e).halted =
      (if hasExitKeyword t then true else st.halted)
    ∧ (listen_loop_step st (finalResp t) tr l e).dispatched =
      (if hasExitKeyword t then st.dispatched else st.dispatched ++ [t])
    ∧ (listen_loop_step st (finalResp t) tr l e).pipe =
      (if hasExitKeyword t then st.pipe
        else listen_dispatch st.pipe ⟨t, tr, l, e⟩)
    ∧ (listen_loop_step st (finalResp t) tr l e).pipe.recordInc =
      (if hasExitKeyword t then st.pipe.recordInc
        else st.pipe.recordInc + 1)
    ∧ (hasExitKeyword t = true ↔ keywordSpec t)
    ∧ hasExitKeyword "please exit now" = true
    ∧ hasExitKeyword "please exist now" = false := by
  obtain ⟨hrec, -, -, -, -⟩ :=
    synthesize_text_effects st.pipe (htmlUnescape tr) l e
  have hdisp : (listen_dispatch st.pipe ⟨t, tr, l, e⟩).recordInc =
      st.pipe.recordInc + 1 := by
    show (synthesize_text st.pipe (htmlUnescape tr) l e).1.recordInc + 1 =
      st.pipe.recordInc + 1
    rw [hrec]
  refine ⟨?_, ?_, ?_, ?_, ?_, hasExitKeyword_iff_keywordSpec t,
    by decide, by decide⟩ <;>
    rw [listen_loop_step_final] <;>
    by_cases h : hasExitKeyword t <;>
    simp [h, hdisp]
